import Mathlib

/-!
Verification of the `js-async-locks` asynchronous lock library against its
specification.  The development shallowly embeds the state and the field
mutations of the relevant classes:

* `Semaphore` (the ctx-based edition in `src/Semaphore.ts`): weighted
  admission with a FIFO or priority queue, lazy abort handling;
* the older async-mutex based `Lock` (`src/Lock.ts`) whose release closure
  has no `released` guard;
* `RWLockWriter` release closures;
* `Barrier` construction;
* `LockBox` request canonicalisation (sort by 16-bit code-unit key order,
  adjacent dedup) and the lock/unwind walk over the keyed map;
* `Monitor` request building, the deadlock detector and the pending-lock
  registration step.

JavaScript numbers that are only ever incremented/decremented are embedded
as `Int`; weights and the weight accumulator as `Nat`; the event queue as a
`List` whose HEAD is the pop end of the JS array (`queue.pop()` removes the
JS array's last element, so the JS array is the reverse of the model list).
-/

namespace AsyncLocks

/-- Error values surfaced by the library (`src/errors.ts` plus the built-in
`RangeError`s thrown by the constructors and by `Semaphore.lock`). -/
inductive JsError
  | rangeError (msg : String)
  | timeout
  | lockBoxConflict
  | monitorLockType
  | monitorDeadlock
  | aborted
deriving DecidableEq

/-- Kind of a queued semaphore task: one created by `Semaphore.lock` (its
effect adds its weight and resolves with a release), or one created by
`Semaphore.waitForUnlock` (its effect only resolves the wait promise). -/
inductive TaskKind
  | lockKind
  | waitKind
deriving DecidableEq

/-- A queued task of the ctx-based `Semaphore` (`src/Semaphore.ts`, type
`Task`): its `weight`, its `aborted` flag, and the kind of effect that
`task.task()` runs when the scheduler pops it. -/
structure Task where
  weight : Nat
  aborted : Bool
  kind : TaskKind
deriving DecidableEq

/-- State of a ctx-based `Semaphore`.  `limit` and `priority` are the
immutable constructor arguments; `count`, `currentWeight` and `queue`
mirror the mutable fields.  `admitted` is a ghost observer holding the
weights of the currently admitted (and not yet released) lock tasks; it is
used to state the weight invariant and is updated exactly when
`currentWeight` is. -/
structure SemState where
  limit : Nat
  priority : Bool
  count : Int
  currentWeight : Nat
  queue : List Task
  admitted : List Nat
deriving DecidableEq

namespace SemState

/-- Model of `Semaphore.insertQueue` in priority mode: the JS insertion sort scans
from the pop end while the scanned weight is strictly smaller than the new
task's weight and splices the new task there.  In the model (head = pop
end) this walks from the head past strictly smaller weights. -/
def insertPrio (t : Task) : List Task → List Task
  | [] => [t]
  | u :: us => if u.weight < t.weight then u :: insertPrio t us else t :: u :: us

/-- Model of `Semaphore.insertQueue`: priority mode uses the insertion sort, FIFO
mode unshifts at the JS front, i.e. appends at the model's tail. -/
def insertQueue (s : SemState) (t : Task) : SemState :=
  if s.priority then { s with queue := insertPrio t s.queue }
  else { s with queue := s.queue ++ [t] }

/-- The effect `task.task()` of a popped, non-aborted task: a lock task
adds its weight to `currentWeight` (and to the ghost `admitted` list); a
`waitForUnlock` task only resolves its promise. -/
def grantTask (s : SemState) (t : Task) : SemState :=
  match t.kind with
  | .lockKind =>
      { s with currentWeight := s.currentWeight + t.weight,
               admitted := t.weight :: s.admitted }
  | .waitKind => s

/-- Model of `Semaphore.processQueue`, with explicit fuel: while the queue is
non-empty and the pop-end task fits (`currentWeight + weight <= limit`),
pop it and, unless it is marked aborted, run its effect.  The fuel is
always instantiated with the queue length, which bounds the number of
pops, so the fuel never runs out. -/
def processQueueGo : Nat → SemState → SemState
  | 0, s => s
  | fuel + 1, s =>
    match s.queue with
    | [] => s
    | t :: rest =>
      if s.currentWeight + t.weight ≤ s.limit then
        processQueueGo fuel
          (if t.aborted then { s with queue := rest }
           else grantTask { s with queue := rest } t)
      else s

/-- Model of `Semaphore.processQueue`. -/
def processQueue (s : SemState) : SemState := processQueueGo s.queue.length s

/-- Model of `Semaphore.lock`'s queued path: `this._count++`, insert the new task,
run the admission loop. -/
def lockEnqueue (s : SemState) (w : Nat) : SemState :=
  processQueue (insertQueue { s with count := s.count + 1 } (Task.mk w false .lockKind))

/-- Model of `Semaphore.lock`'s synchronous body: `this._count++`; if the context
signal is already aborted, `this._count--` and reject with the signal's
reason; otherwise enqueue the task and run the admission loop.  The
second component is `some reason` when the returned future rejects. -/
def lockInvoke (s : SemState) (w : Nat) (sigAborted : Bool) (reason : JsError) :
    SemState × Option JsError :=
  let s1 := { s with count := s.count + 1 }
  if sigAborted then ({ s1 with count := s1.count - 1 }, some reason)
  else (processQueue (insertQueue s1 (Task.mk w false .lockKind)), none)

/-- Model of `Semaphore.waitForUnlock`'s queued path: no count change, insert the
wait task, run the admission loop. -/
def waitEnqueue (s : SemState) (w : Nat) : SemState :=
  processQueue (insertQueue s (Task.mk w false .waitKind))

/-- Mark the task at position `i` (from the pop end) as aborted, leaving
it in the queue. -/
def markAbortedAt : List Task → Nat → List Task
  | [], _ => []
  | t :: ts, 0 => { t with aborted := true } :: ts
  | t :: ts, i + 1 => t :: markAbortedAt ts i

/-- The abort handler installed by `Semaphore.lock` (`abortHandler`):
`this._count--`, mark the task aborted, reject the admission promise.  It
does NOT run `processQueue`. -/
def abortAt (s : SemState) (i : Nat) : SemState :=
  { s with count := s.count - 1, queue := markAbortedAt s.queue i }

/-- The abort handler installed by `Semaphore.waitForUnlock`: mark the
task aborted and reject; the count is untouched. -/
def waitAbortAt (s : SemState) (i : Nat) : SemState :=
  { s with queue := markAbortedAt s.queue i }

/-- The abort behaviour that the specification describes: the admission
loop also runs on the abort event itself. -/
def abortAtClaim (s : SemState) (i : Nat) : SemState :=
  processQueue (abortAt s i)

/-- First-call body of the release closure created on admission:
`this._count--`, `this.currentWeight -= weight`, `this.processQueue()`;
the ghost `admitted` list drops the released weight. -/
def releaseTask (s : SemState) (w : Nat) : SemState :=
  processQueue
    { s with count := s.count - 1,
             currentWeight := s.currentWeight - w,
             admitted := s.admitted.erase w }

/-- The release closure together with its captured `released` flag:
`if (released) return; released = true;` then the first-call body. -/
def semRelease (w : Nat) (x : SemState × Bool) : SemState × Bool :=
  if x.2 then x else (releaseTask x.1 w, true)

/-- States reachable by the `Semaphore` event handlers: construction with
`limit >= 1`, lock enqueue with `weight >= 1`, wait enqueue, the two abort
handlers, and a first release of an admitted weight. -/
inductive Reachable : SemState → Prop
  | init (limit : Nat) (priority : Bool) (h : 1 ≤ limit) :
      Reachable (SemState.mk limit priority 0 0 [] [])
  | lockStep (s : SemState) (w : Nat) (hw : 1 ≤ w) (hs : Reachable s) :
      Reachable (lockEnqueue s w)
  | waitStep (s : SemState) (w : Nat) (hw : 1 ≤ w) (hs : Reachable s) :
      Reachable (waitEnqueue s w)
  | abortLockStep (s : SemState) (i : Nat) (hs : Reachable s) :
      Reachable (abortAt s i)
  | abortWaitStep (s : SemState) (i : Nat) (hs : Reachable s) :
      Reachable (waitAbortAt s i)
  | releaseStep (s : SemState) (w : Nat) (hw : w ∈ s.admitted) (hs : Reachable s) :
      Reachable (releaseTask s w)

/-- The weight bookkeeping invariant: `currentWeight` is the sum of the
ghost admitted weights and never exceeds `limit`. -/
def SemInv (s : SemState) : Prop :=
  s.currentWeight = s.admitted.sum ∧ s.currentWeight ≤ s.limit

/-- A state is quiescent when the admission loop has run to its fixpoint:
the queue is empty or the pop-end task does not fit. -/
def Quiescent (s : SemState) : Prop :=
  match s.queue with
  | [] => True
  | t :: _ => s.limit < s.currentWeight + t.weight

theorem insertQueue_currentWeight (s : SemState) (t : Task) :
    (insertQueue s t).currentWeight = s.currentWeight := by
  unfold insertQueue; split <;> rfl

theorem insertQueue_admitted (s : SemState) (t : Task) :
    (insertQueue s t).admitted = s.admitted := by
  unfold insertQueue; split <;> rfl

theorem insertQueue_limit (s : SemState) (t : Task) :
    (insertQueue s t).limit = s.limit := by
  unfold insertQueue; split <;> rfl

theorem processQueueGo_inv : ∀ (fuel : Nat) (s : SemState),
    SemInv s → SemInv (processQueueGo fuel s) := by
  intro fuel
  induction fuel with
  | zero => intro s h; exact h
  | succ n ih =>
    intro s h
    show SemInv (processQueueGo (n + 1) s)
    rw [processQueueGo]
    cases hq : s.queue with
    | nil => exact h
    | cons t rest =>
      by_cases hle : s.currentWeight + t.weight ≤ s.limit
      · simp only [hle, if_pos]
        apply ih
        cases hab : t.aborted
        · simp only [Bool.false_eq_true, if_neg, not_false_iff]
          obtain ⟨w, ab, kd⟩ := t
          cases kd with
          | lockKind =>
            have h1 := h.1
            refine ⟨?_, ?_⟩
            · simp only [grantTask, List.sum_cons]
              omega
            · simpa [grantTask] using hle
          | waitKind => exact h
        · simpa using h
      · simp only [hle, if_neg, not_false_iff]
        exact h

theorem processQueue_inv (s : SemState) (h : SemInv s) : SemInv (processQueue s) :=
  processQueueGo_inv s.queue.length s h

theorem reachable_inv (s : SemState) (h : Reachable s) : SemInv s := by
  induction h with
  | init limit priority h => exact ⟨rfl, Nat.zero_le _⟩
  | lockStep s w hw hs ih =>
    apply processQueue_inv
    refine ⟨?_, ?_⟩
    · rw [insertQueue_currentWeight, insertQueue_admitted]; exact ih.1
    · rw [insertQueue_currentWeight, insertQueue_limit]; exact ih.2
  | waitStep s w hw hs ih =>
    apply processQueue_inv
    refine ⟨?_, ?_⟩
    · rw [insertQueue_currentWeight, insertQueue_admitted]; exact ih.1
    · rw [insertQueue_currentWeight, insertQueue_limit]; exact ih.2
  | abortLockStep s i hs ih => exact ih
  | abortWaitStep s i hs ih => exact ih
  | releaseStep s w hw hs ih =>
    apply processQueue_inv
    have hsum : s.admitted.sum = w + (s.admitted.erase w).sum :=
      (List.perm_cons_erase hw).sum_eq
    refine ⟨?_, ?_⟩
    · show s.currentWeight - w = (s.admitted.erase w).sum
      rw [ih.1, hsum, Nat.add_comm, Nat.add_sub_cancel]
    · exact le_trans (Nat.sub_le _ _) ih.2

theorem markAbortedAt_length : ∀ (l : List Task) (i : Nat),
    (markAbortedAt l i).length = l.length := by
  intro l
  induction l with
  | nil => intro i; rfl
  | cons t ts ih =>
    intro i
    cases i with
    | zero => rfl
    | succ j => simpa [markAbortedAt] using ih j

end SemState

open SemState in
/-- C1.  For every Semaphore constructed with `limit >= 1`, in every
reachable state the sum of the weights of the currently admitted tasks is
at most `limit`, and `currentWeight` is exactly that sum: the admission
loop only grants a task when `currentWeight + weight <= limit` and adds
the weight before resolving. -/
theorem semaphore_admitted_weight_le_limit (s : SemState) (h : Reachable s) :
    s.admitted.sum ≤ s.limit ∧ s.currentWeight = s.admitted.sum := by
  have hinv := reachable_inv s h
  exact ⟨hinv.1 ▸ hinv.2, hinv.1⟩

open SemState in
theorem semaphore_admitted_weight_le_limit_witness :
    (lockEnqueue (SemState.mk 2 false 0 0 [] []) 1).admitted.sum ≤
        (lockEnqueue (SemState.mk 2 false 0 0 [] []) 1).limit ∧
      (lockEnqueue (SemState.mk 2 false 0 0 [] []) 1).currentWeight =
        (lockEnqueue (SemState.mk 2 false 0 0 [] []) 1).admitted.sum :=
  semaphore_admitted_weight_le_limit _
    (Reachable.lockStep _ 1 (by decide) (Reachable.init 2 false (by decide)))

open SemState in
/-- C8.  If the context signal is already aborted when the acquire
returned by `Semaphore.lock` is invoked, the future rejects synchronously
with the signal's reason, no task is enqueued, and the state is unchanged
(`count` is incremented and immediately decremented). -/
theorem semaphore_lock_already_aborted (s : SemState) (w : Nat) (r : JsError) :
    lockInvoke s w true r = (s, some r) := by
  simp [lockInvoke]

open SemState in
/-- C3 counterexample.  The claim says the abort handler of a queued task
runs the admission loop.  The implemented handler (`abortHandler` in
`Semaphore.lock`) only decrements `count`, marks the task aborted and
rejects; it does not call `processQueue`, so on a state where the loop
would pop tasks the two operations disagree. -/
theorem semaphore_abort_runs_loop_counterexample :
    abortAtClaim (SemState.mk 2 false 2 0
        [Task.mk 1 false .lockKind, Task.mk 2 false .lockKind] []) 0 ≠
      abortAt (SemState.mk 2 false 2 0
        [Task.mk 1 false .lockKind, Task.mk 2 false .lockKind] []) 0 := by
  decide

open SemState in
/-- C3 (amended).  The admission loop runs on release and on enqueue but
not on abort: the abort handler only decrements `count` and marks the
task aborted, leaving it in the queue to be skipped lazily.  On every
quiescent state — and aborts only ever fire on quiescent states, since
every enqueue and every release re-runs the loop to its fixpoint — this
makes no observable difference: marking a task aborted changes neither
`currentWeight` nor any queued weight, so the loop the claim asks for
would admit nothing anyway. -/
theorem semaphore_abort_no_admission (s : SemState) (i : Nat) (h : Quiescent s) :
    abortAtClaim s i = abortAt s i ∧
      (abortAt s i).admitted = s.admitted ∧
      (abortAt s i).currentWeight = s.currentWeight := by
  refine ⟨?_, rfl, rfl⟩
  show processQueue (abortAt s i) = abortAt s i
  cases hq : s.queue with
  | nil =>
    simp only [processQueue, abortAt, hq, markAbortedAt, List.length_nil]
    rfl
  | cons t rest =>
    have hlt : s.limit < s.currentWeight + t.weight := by
      simpa [Quiescent, hq] using h
    cases i with
    | zero =>
      simp only [processQueue, abortAt, hq, markAbortedAt, List.length_cons]
      rw [processQueueGo]
      simp [Nat.not_le.mpr hlt]
    | succ j =>
      simp only [processQueue, abortAt, hq, markAbortedAt, List.length_cons]
      rw [processQueueGo]
      simp [Nat.not_le.mpr hlt]

open SemState in
theorem semaphore_abort_no_admission_witness :
    Quiescent (SemState.mk 1 false 2 1 [Task.mk 1 false .lockKind] [1]) ∧
      abortAtClaim (SemState.mk 1 false 2 1 [Task.mk 1 false .lockKind] [1]) 0 =
        abortAt (SemState.mk 1 false 2 1 [Task.mk 1 false .lockKind] [1]) 0 :=
  ⟨(by decide : (1 : Nat) < 1 + 1),
    (semaphore_abort_no_admission
      (SemState.mk 1 false 2 1 [Task.mk 1 false .lockKind] [1]) 0
      (by decide : (1 : Nat) < 1 + 1)).1⟩

open SemState in
/-- C10.  In priority mode `insertQueue` splices the new task right after
the strictly-smaller weights at the pop end of the queue (head of the
model list): every task closer to the pop end than the new one has a
strictly smaller weight, so among equal weights the newest task is popped
— hence admitted — first (LIFO).  In unprioritised mode the new task is
unshifted at the JS front, i.e. appended at the far end, giving FIFO. -/
theorem semaphore_priority_equal_weight_lifo (s : SemState) (t : Task) :
    (s.priority = true → (insertQueue s t).queue =
        s.queue.takeWhile (fun u => decide (u.weight < t.weight)) ++
          t :: s.queue.dropWhile (fun u => decide (u.weight < t.weight))) ∧
      (s.priority = false → (insertQueue s t).queue = s.queue ++ [t]) := by
  constructor
  · intro hp
    simp only [insertQueue, hp, if_pos]
    induction s.queue with
    | nil => rfl
    | cons u us ih =>
      by_cases hu : u.weight < t.weight
      · simpa [insertPrio, hu, List.takeWhile, List.dropWhile] using ih
      · simp [insertPrio, hu, List.takeWhile, List.dropWhile]
  · intro hp
    simp [insertQueue, hp]

open SemState in
theorem semaphore_priority_equal_weight_lifo_witness :
    (insertQueue
        (SemState.mk 4 true 3 0
          [Task.mk 1 false .lockKind, Task.mk 3 true .lockKind] [])
        (Task.mk 3 false .lockKind)).queue =
      [Task.mk 1 false .lockKind, Task.mk 3 false .lockKind,
        Task.mk 3 true .lockKind] :=
  ((semaphore_priority_equal_weight_lifo
      (SemState.mk 4 true 3 0
        [Task.mk 1 false .lockKind, Task.mk 3 true .lockKind] [])
      (Task.mk 3 false .lockKind)).1 rfl).trans (by decide)

/-- State of the async-mutex based `Lock` (`src/Lock.ts`): the `_count`
field and whether the inner mutex is held. -/
structure OldLockState where
  count : Int
  locked : Bool
deriving DecidableEq

/-- Model of `Lock.lock`'s acquire body on the fast path: `++this._count`, then the
mutex is acquired. -/
def oldLockAcquire (s : OldLockState) : OldLockState :=
  { count := s.count + 1, locked := true }

/-- The release closure returned by `Lock.lock` (src/Lock.ts lines 27-35):
`--this._count; release();` — there is no `released` guard, so every call
decrements `_count` and releases the mutex again. -/
def oldLockRelease (s : OldLockState) : OldLockState :=
  { count := s.count - 1, locked := false }

/-- State touched by the `RWLockWriter` release closures: the
`_readerCount` and `_writerCount` fields and whether the inner
`readersLock` and `writersLock` are held. -/
structure RWWriterState where
  readerCount : Int
  writerCount : Int
  readersLocked : Bool
  writersLocked : Bool
deriving DecidableEq

/-- The release closure returned by `RWLockWriter.read` (src/RWLockWriter.ts
lines 114-124) together with its captured `released` flag:
`if (released) return; released = true;` then `--this._readerCount` and,
when it reached zero, release the cohort's `readersLock`. -/
def rwWriterReadRelease (x : RWWriterState × Bool) : RWWriterState × Bool :=
  if x.2 then x
  else
    ({ x.1 with
        readerCount := x.1.readerCount - 1,
        readersLocked :=
          if x.1.readerCount - 1 = 0 then false else x.1.readersLocked }, true)

/-- The release closure returned by `RWLockWriter.write` (src/RWLockWriter.ts
lines 163-173) together with its captured `released` flag:
`if (released) return; released = true;` then release the `readersLock`,
release the `writersLock`, and `--this._writerCount`. -/
def rwWriterWriteRelease (x : RWWriterState × Bool) : RWWriterState × Bool :=
  if x.2 then x
  else
    ({ x.1 with
        readersLocked := false,
        writersLocked := false,
        writerCount := x.1.writerCount - 1 }, true)

/-- State of a `Barrier`: the remaining participant count and the inner
pre-acquired `Lock` (its count and held flag). -/
structure BarrierState where
  count : Int
  lockCount : Int
  lockLocked : Bool
deriving DecidableEq

/-- Model of `Semaphore` construction (`src/Semaphore.ts` constructor): `limit < 1`
throws a `RangeError`, otherwise the state starts empty. -/
def semaphoreConstruct (limit : Int) (priority : Bool) : Except JsError SemState :=
  if limit < 1 then
    .error (.rangeError "Semaphore must be constructed with `limit` >= 1")
  else
    .ok (SemState.mk limit.toNat priority 0 0 [] [])

/-- The synchronous weight check at the top of `Semaphore.lock` (and of
`Semaphore.waitForUnlock`): `weight < 1` throws a `RangeError` before any
acquire is produced. -/
def semaphoreLockValidate (weight : Int) : Except JsError Unit :=
  if weight < 1 then
    .error (.rangeError "Semaphore must be locked with `weight` >= 1")
  else
    .ok ()

/-- Model of `Barrier.createBarrier`: a fresh inner `Lock` is acquired once, then
the constructor checks `count < 0` and throws a `RangeError`. -/
def barrierCreate (count : Int) : Except JsError BarrierState :=
  if count < 0 then
    .error (.rangeError "Barrier must be constructed with `count` >= than 0")
  else
    .ok (BarrierState.mk count 1 true)

/-- C9.  The three synchronous range checks: a Semaphore constructed with
`limit < 1`, a `Semaphore.lock` (or `waitForUnlock`) call with
`weight < 1`, and a Barrier constructed with `count < 0` each fail with a
`RangeError`, and succeed otherwise. -/
theorem range_error_checks (limit weight count : Int) (priority : Bool) :
    (semaphoreConstruct limit priority =
        .error (.rangeError "Semaphore must be constructed with `limit` >= 1") ↔
      limit < 1) ∧
      (semaphoreLockValidate weight =
          .error (.rangeError "Semaphore must be locked with `weight` >= 1") ↔
        weight < 1) ∧
      (barrierCreate count =
          .error (.rangeError "Barrier must be constructed with `count` >= than 0") ↔
        count < 0) := by
  refine ⟨?_, ?_, ?_⟩
  · unfold semaphoreConstruct; split <;> simp_all
  · unfold semaphoreLockValidate; split <;> simp_all
  · unfold barrierCreate; split <;> simp_all

/-- A JavaScript string key, as its sequence of 16-bit code units; the JS
`<` / `>` operators compare these sequences lexicographically. -/
abbrev JKey := List Nat

/-- JS string comparison `key1 < key2` over code units: lexicographic,
with a proper prefix ordered first. -/
def keyLtB : JKey → JKey → Bool
  | [], [] => false
  | [], _ :: _ => true
  | _ :: _, [] => false
  | a :: as, b :: bs => if a < b then true else if b < a then false else keyLtB as bs

theorem keyLtB_irrefl : ∀ a : JKey, keyLtB a a = false := by
  intro a
  induction a with
  | nil => rfl
  | cons x xs ih => simp [keyLtB, ih]

theorem keyLtB_trans : ∀ a b c : JKey,
    keyLtB a b = true → keyLtB b c = true → keyLtB a c = true := by
  intro a
  induction a with
  | nil =>
    intro b c hab hbc
    cases b with
    | nil => exact absurd hab (by simp [keyLtB])
    | cons y ys =>
      cases c with
      | nil => exact absurd hbc (by simp [keyLtB])
      | cons z zs => simp [keyLtB]
  | cons x xs ih =>
    intro b c hab hbc
    cases b with
    | nil => exact absurd hab (by simp [keyLtB])
    | cons y ys =>
      cases c with
      | nil => exact absurd hbc (by simp [keyLtB])
      | cons z zs =>
        simp only [keyLtB] at hab hbc ⊢
        by_cases hxy : x < y
        · by_cases hyz : y < z
          · simp [show x < z by omega]
          · by_cases hzy : z < y
            · simp [hyz, hzy] at hbc
            · simp [show x < z by omega]
        · by_cases hyx : y < x
          · simp [hxy, hyx] at hab
          · by_cases hyz : y < z
            · simp [show x < z by omega]
            · by_cases hzy : z < y
              · simp [hyz, hzy] at hbc
              · have hxz : ¬ x < z := by omega
                have hzx : ¬ z < x := by omega
                simp only [hxy, hyx, hyz, hzy, hxz, hzx, if_neg, if_false,
                  not_false_iff] at hab hbc ⊢
                exact ih ys zs hab hbc

theorem keyLtB_asymm {a b : JKey} (h : keyLtB a b = true) : keyLtB b a = false := by
  by_contra hc
  have hba : keyLtB b a = true := by
    cases hv : keyLtB b a
    · exact absurd hv hc
    · rfl
  have := keyLtB_trans a b a h hba
  rw [keyLtB_irrefl] at this
  exact Bool.false_ne_true this

theorem keyLtB_eq_of_not : ∀ a b : JKey,
    keyLtB a b = false → keyLtB b a = false → a = b := by
  intro a
  induction a with
  | nil =>
    intro b hab _
    cases b with
    | nil => rfl
    | cons y ys => simp [keyLtB] at hab
  | cons x xs ih =>
    intro b hab hba
    cases b with
    | nil => simp [keyLtB] at hba
    | cons y ys =>
      simp only [keyLtB] at hab hba
      by_cases hxy : x < y
      · simp [hxy] at hab
      · by_cases hyx : y < x
        · simp [hyx, hxy] at hba
        · have hx : x = y := by omega
          simp only [hxy, hyx, if_neg, not_false_iff] at hab hba
          rw [hx, ih ys hab hba]

/-- From `a < b` and `b <= c` we get `a < c` for the code-unit order. -/
theorem keyLtB_lt_of_lt_of_le {a b c : JKey}
    (hab : keyLtB a b = true) (hcb : keyLtB c b = false) : keyLtB a c = true := by
  cases hac : keyLtB a c
  · exfalso
    cases hca : keyLtB c a
    · have := keyLtB_eq_of_not a c hac hca
      subst this
      rw [hab] at hcb
      simp at hcb
    · have := keyLtB_trans c a b hca hab
      rw [this] at hcb
      simp at hcb
  · rfl

/-- From `a <= b` and `b <= c` we get `a <= c` for the code-unit order. -/
theorem keyLtB_le_trans {a b c : JKey}
    (hba : keyLtB b a = false) (hcb : keyLtB c b = false) : keyLtB c a = false := by
  cases hca : keyLtB c a
  · rfl
  · exfalso
    cases hbc : keyLtB b c
    · have := keyLtB_eq_of_not b c hbc hcb
      subst this
      rw [hca] at hba
      simp at hba
    · have := keyLtB_trans b c a hbc hca
      rw [this] at hba
      simp at hba

/-- One step of the stable sort used to model `Array.prototype.sort` with
the key comparator of `LockBox.lock` / `LockBox.lockMulti`: the element
`r` (earlier in the input than everything in the list) moves past the
strictly smaller keys and stops before the first key that is not smaller,
so it lands before every element with an equal key. -/
def insertReq {α : Type} (r : JKey × α) : List (JKey × α) → List (JKey × α)
  | [] => [r]
  | x :: xs => if keyLtB x.1 r.1 then x :: insertReq r xs else r :: x :: xs

/-- The stable sort of the request list by key (`requests_.sort(...)` with
the deterministic 16-bit code-unit comparator; JS `Array.prototype.sort`
is stable, and a stable sort under a total preorder has a unique result,
so insertion sort is an exact model). -/
def sortReqs {α : Type} : List (JKey × α) → List (JKey × α)
  | [] => []
  | x :: xs => insertReq x (sortReqs xs)

/-- The adjacent dedup `requests_.filter(([key], i, arr) => i === 0 ||
key !== arr[i-1][0])`: keep an element when its key differs from the key
of the element right before it in the (sorted) array. -/
def dedupAdjGo {α : Type} (prev : JKey × α) : List (JKey × α) → List (JKey × α)
  | [] => []
  | x :: xs => if x.1 = prev.1 then dedupAdjGo x xs else x :: dedupAdjGo x xs

/-- Adjacent dedup of the whole array: the first element is always kept. -/
def dedupAdj {α : Type} : List (JKey × α) → List (JKey × α)
  | [] => []
  | x :: xs => x :: dedupAdjGo x xs

/-- The effective request list computed by `LockBox.lock` (lines 58-70):
copy, sort by key, dedup adjacent duplicate keys. -/
def lockEffectiveRequests {α : Type} (reqs : List (JKey × α)) : List (JKey × α) :=
  dedupAdj (sortReqs reqs)

/-- The effective request list computed by `LockBox.lockMulti` (lines
135-147): copy, sort by key, dedup adjacent duplicate keys. -/
def lockMultiEffectiveRequests {α : Type} (reqs : List (JKey × α)) : List (JKey × α) :=
  dedupAdj (sortReqs reqs)

/-- First element of the list whose key is `k` — the request that wins
under first-wins deduplication. -/
def findFirstByKey {α : Type} (k : JKey) : List (JKey × α) → Option (JKey × α)
  | [] => none
  | x :: xs => if x.1 = k then some x else findFirstByKey k xs

/-- All elements of the list whose key is `k`, in order. -/
def filterByKey {α : Type} (k : JKey) : List (JKey × α) → List (JKey × α)
  | [] => []
  | x :: xs => if x.1 = k then x :: filterByKey k xs else filterByKey k xs

theorem findFirstByKey_eq_head {α : Type} (k : JKey) :
    ∀ l : List (JKey × α), findFirstByKey k l = (filterByKey k l).head? := by
  intro l
  induction l with
  | nil => rfl
  | cons x xs ih =>
    by_cases hx : x.1 = k
    · simp [findFirstByKey, filterByKey, hx]
    · simp [findFirstByKey, filterByKey, hx, ih]

theorem filterByKey_append {α : Type} (k : JKey) (l1 l2 : List (JKey × α)) :
    filterByKey k (l1 ++ l2) = filterByKey k l1 ++ filterByKey k l2 := by
  induction l1 with
  | nil => rfl
  | cons x xs ih =>
    by_cases hx : x.1 = k <;> simp [filterByKey, hx, ih]

/-- Lemma: `insertReq` splits the list at the insertion point: the elements in
front of `r` are exactly the prefix of strictly smaller keys. -/
theorem insertReq_decomp {α : Type} (r : JKey × α) (l : List (JKey × α)) :
    ∃ p q, insertReq r l = p ++ r :: q ∧ l = p ++ q ∧
      ∀ y ∈ p, keyLtB y.1 r.1 = true := by
  induction l with
  | nil => exact ⟨[], [], rfl, rfl, by simp⟩
  | cons x xs ih =>
    by_cases hx : keyLtB x.1 r.1 = true
    · obtain ⟨p, q, h1, h2, h3⟩ := ih
      refine ⟨x :: p, q, ?_, ?_, ?_⟩
      · simp [insertReq, hx, h1]
      · simp [h2]
      · intro y hy
        rcases List.mem_cons.mp hy with hy | hy
        · exact hy ▸ hx
        · exact h3 y hy
    · refine ⟨[], x :: xs, ?_, rfl, by simp⟩
      simp only [insertReq]
      rw [if_neg hx]
      rfl

theorem insertReq_perm {α : Type} (r : JKey × α) (l : List (JKey × α)) :
    (insertReq r l).Perm (r :: l) := by
  obtain ⟨p, q, h1, h2, _⟩ := insertReq_decomp r l
  rw [h1, h2]
  exact List.perm_middle

theorem sortReqs_perm {α : Type} (l : List (JKey × α)) : (sortReqs l).Perm l := by
  induction l with
  | nil => exact List.Perm.refl _
  | cons x xs ih =>
    exact ((insertReq_perm x (sortReqs xs)).trans (ih.cons x))

theorem filterByKey_eq_nil_of_lt {α : Type} (k : JKey) :
    ∀ p : List (JKey × α), (∀ y ∈ p, keyLtB y.1 k = true) →
      filterByKey k p = [] := by
  intro p
  induction p with
  | nil => intro _; rfl
  | cons y ys ihp =>
    intro h
    have hy : keyLtB y.1 k = true := h y (by simp)
    have hne : y.1 ≠ k := by
      intro he
      rw [he] at hy
      rw [keyLtB_irrefl] at hy
      simp at hy
    simp only [filterByKey, hne, if_neg, not_false_iff]
    exact ihp (fun z hz => h z (by simp [hz]))

/-- Stability of the sort: filtering the sorted list by any single key
gives exactly the input's elements with that key, in input order. -/
theorem filterByKey_insertReq {α : Type} (k : JKey) (r : JKey × α)
    (l : List (JKey × α)) :
    filterByKey k (insertReq r l) =
      if r.1 = k then r :: filterByKey k l else filterByKey k l := by
  obtain ⟨p, q, h1, h2, h3⟩ := insertReq_decomp r l
  rw [h1, h2, filterByKey_append, filterByKey_append]
  by_cases hr : r.1 = k
  · have hp : filterByKey k p = [] :=
      filterByKey_eq_nil_of_lt k p (fun y hy => hr ▸ h3 y hy)
    simp [hr, hp, filterByKey]
  · simp [filterByKey, hr]

theorem filterByKey_sortReqs {α : Type} (k : JKey) (l : List (JKey × α)) :
    filterByKey k (sortReqs l) = filterByKey k l := by
  induction l with
  | nil => rfl
  | cons x xs ih =>
    show filterByKey k (insertReq x (sortReqs xs)) = _
    rw [filterByKey_insertReq]
    by_cases hx : x.1 = k <;> simp [filterByKey, hx, ih]

theorem keyLtB_of_ne {a b : JKey} (h : keyLtB b a = false) (hne : b ≠ a) :
    keyLtB a b = true := by
  cases hab : keyLtB a b
  · exact absurd (keyLtB_eq_of_not a b hab h).symm hne
  · rfl

theorem pairwise_insertReq {α : Type} (r : JKey × α) :
    ∀ l : List (JKey × α),
      List.Pairwise (fun a b : JKey × α => keyLtB b.1 a.1 = false) l →
      List.Pairwise (fun a b : JKey × α => keyLtB b.1 a.1 = false) (insertReq r l) := by
  intro l
  induction l with
  | nil => intro _; simp [insertReq]
  | cons x xs ih =>
    intro h
    rw [List.pairwise_cons] at h
    obtain ⟨hx, hxs⟩ := h
    by_cases hlt : keyLtB x.1 r.1 = true
    · simp only [insertReq, hlt, if_pos]
      rw [List.pairwise_cons]
      refine ⟨?_, ih hxs⟩
      intro y hy
      rcases List.mem_cons.mp ((insertReq_perm r xs).mem_iff.mp hy) with hy | hy
      · exact hy ▸ keyLtB_asymm hlt
      · exact hx y hy
    · have hlt' : keyLtB x.1 r.1 = false := by
        cases hv : keyLtB x.1 r.1
        · rfl
        · exact absurd hv hlt
      simp only [insertReq, hlt', Bool.false_eq_true, if_neg, not_false_iff]
      rw [List.pairwise_cons]
      refine ⟨?_, List.pairwise_cons.mpr ⟨hx, hxs⟩⟩
      intro y hy
      rcases List.mem_cons.mp hy with hy | hy
      · exact hy ▸ hlt'
      · exact keyLtB_le_trans hlt' (hx y hy)

theorem sortReqs_sorted {α : Type} (l : List (JKey × α)) :
    List.Pairwise (fun a b : JKey × α => keyLtB b.1 a.1 = false) (sortReqs l) := by
  induction l with
  | nil => simp [sortReqs]
  | cons x xs ih => exact pairwise_insertReq x (sortReqs xs) ih

theorem dedupAdjGo_subset {α : Type} :
    ∀ (l : List (JKey × α)) (prev y : JKey × α), y ∈ dedupAdjGo prev l → y ∈ l := by
  intro l
  induction l with
  | nil => intro prev y hy; simp [dedupAdjGo] at hy
  | cons x xs ih =>
    intro prev y hy
    by_cases hx : x.1 = prev.1
    · simp only [dedupAdjGo, hx, if_pos] at hy
      exact List.mem_cons_of_mem x (ih x y hy)
    · simp only [dedupAdjGo, hx, if_neg, not_false_iff] at hy
      rcases List.mem_cons.mp hy with hy | hy
      · exact hy ▸ List.mem_cons_self x xs
      · exact List.mem_cons_of_mem x (ih x y hy)

theorem dedupAdjGo_strict {α : Type} :
    ∀ (l : List (JKey × α)) (prev : JKey × α),
      List.Pairwise (fun a b : JKey × α => keyLtB b.1 a.1 = false) (prev :: l) →
      (∀ y ∈ dedupAdjGo prev l, keyLtB prev.1 y.1 = true) ∧
        List.Pairwise (fun a b : JKey × α => keyLtB a.1 b.1 = true) (dedupAdjGo prev l) := by
  intro l
  induction l with
  | nil => intro prev _; exact ⟨by simp [dedupAdjGo], by simp [dedupAdjGo]⟩
  | cons x xs ih =>
    intro prev h
    rw [List.pairwise_cons] at h
    obtain ⟨hprev, htail⟩ := h
    have hpx : keyLtB x.1 prev.1 = false := hprev x (by simp)
    by_cases hx : x.1 = prev.1
    · simp only [dedupAdjGo, hx, if_pos]
      obtain ⟨hall, hpw⟩ := ih x htail
      exact ⟨fun y hy => hx ▸ hall y hy, hpw⟩
    · simp only [dedupAdjGo, hx, if_neg, not_false_iff]
      obtain ⟨hall, hpw⟩ := ih x htail
      have hplt : keyLtB prev.1 x.1 = true := keyLtB_of_ne hpx hx
      constructor
      · intro y hy
        rcases List.mem_cons.mp hy with hy | hy
        · exact hy ▸ hplt
        · exact keyLtB_trans prev.1 x.1 y.1 hplt (hall y hy)
      · rw [List.pairwise_cons]
        exact ⟨hall, hpw⟩

theorem dedupAdjGo_firstwins {α : Type} :
    ∀ (l : List (JKey × α)) (prev : JKey × α),
      List.Pairwise (fun a b : JKey × α => keyLtB b.1 a.1 = false) (prev :: l) →
      ∀ y ∈ dedupAdjGo prev l, y.1 ≠ prev.1 ∧ findFirstByKey y.1 l = some y := by
  intro l
  induction l with
  | nil => intro prev _ y hy; simp [dedupAdjGo] at hy
  | cons x xs ih =>
    intro prev h y hy
    rw [List.pairwise_cons] at h
    obtain ⟨hprev, htail⟩ := h
    have hpx : keyLtB x.1 prev.1 = false := hprev x (by simp)
    by_cases hx : x.1 = prev.1
    · simp only [dedupAdjGo, hx, if_pos] at hy
      obtain ⟨hne, hfind⟩ := ih x htail y hy
      refine ⟨hx ▸ hne, ?_⟩
      rw [findFirstByKey, if_neg (fun h' => hne h'.symm)]
      exact hfind
    · simp only [dedupAdjGo, hx, if_neg, not_false_iff] at hy
      rcases List.mem_cons.mp hy with hy | hy
      · subst hy
        refine ⟨hx, ?_⟩
        simp [findFirstByKey]
      · obtain ⟨hne, hfind⟩ := ih x htail y hy
        have hplt : keyLtB prev.1 x.1 = true := keyLtB_of_ne hpx hx
        have hyxs : y ∈ xs := dedupAdjGo_subset xs x y hy
        have hyx : keyLtB y.1 x.1 = false :=
          (List.pairwise_cons.mp htail).1 y hyxs
        have hpy : keyLtB prev.1 y.1 = true := keyLtB_lt_of_lt_of_le hplt hyx
        refine ⟨?_, ?_⟩
        · intro he
          rw [he] at hpy
          rw [keyLtB_irrefl] at hpy
          simp at hpy
        · show findFirstByKey y.1 (x :: xs) = some y
          rw [findFirstByKey, if_neg (fun h' => hne h'.symm)]
          exact hfind

theorem dedupAdjGo_covers {α : Type} :
    ∀ (l : List (JKey × α)) (prev y : JKey × α), y ∈ l →
      y.1 = prev.1 ∨ ∃ r ∈ dedupAdjGo prev l, r.1 = y.1 := by
  intro l
  induction l with
  | nil => intro prev y hy; simp at hy
  | cons x xs ih =>
    intro prev y hy
    rcases List.mem_cons.mp hy with hy | hy
    · subst hy
      by_cases hx : y.1 = prev.1
      · exact Or.inl hx
      · refine Or.inr ⟨y, ?_, rfl⟩
        simp [dedupAdjGo, hx]
    · rcases ih x y hy with hcase | ⟨r, hr, hrk⟩
      · by_cases hx : x.1 = prev.1
        · exact Or.inl (hcase.trans hx)
        · refine Or.inr ⟨x, ?_, hcase.symm⟩
          simp [dedupAdjGo, hx]
      · refine Or.inr ⟨r, ?_, hrk⟩
        by_cases hx : x.1 = prev.1 <;> simp [dedupAdjGo, hx, hr]

/-- C4.  `LockBox.lock` and `LockBox.lockMulti` compute the same effective
request list from the same input: a copy of the requests, sorted by key
under the deterministic 16-bit code-unit comparison (a stable sort), then
deduplicated so only the first request per distinct key survives.  The
result has strictly increasing (hence pairwise distinct) keys — the
canonical deadlock-avoidance order — each surviving request is the first
request of the input with its key (first-wins), and no input key is
dropped. -/
theorem lockbox_canonical_requests {α : Type} (reqs : List (JKey × α)) :
    lockEffectiveRequests reqs = lockMultiEffectiveRequests reqs ∧
      List.Pairwise (fun a b : JKey × α => keyLtB a.1 b.1 = true)
        (lockEffectiveRequests reqs) ∧
      (∀ r ∈ lockEffectiveRequests reqs, findFirstByKey r.1 reqs = some r) ∧
      (∀ x ∈ reqs, ∃ r ∈ lockEffectiveRequests reqs, r.1 = x.1) := by
  have hsorted := sortReqs_sorted reqs
  have hfind : ∀ k : JKey, findFirstByKey k (sortReqs reqs) = findFirstByKey k reqs := by
    intro k
    rw [findFirstByKey_eq_head, findFirstByKey_eq_head, filterByKey_sortReqs]
  refine ⟨rfl, ?_, ?_, ?_⟩
  · show List.Pairwise _ (dedupAdj (sortReqs reqs))
    cases hS : sortReqs reqs with
    | nil => simp [dedupAdj]
    | cons x xs =>
      rw [hS] at hsorted
      obtain ⟨hall, hpw⟩ := dedupAdjGo_strict xs x hsorted
      simp only [dedupAdj]
      rw [List.pairwise_cons]
      exact ⟨hall, hpw⟩
  · intro r hr
    show findFirstByKey r.1 reqs = some r
    rw [← hfind r.1]
    revert hr
    show r ∈ dedupAdj (sortReqs reqs) → _
    cases hS : sortReqs reqs with
    | nil => intro hr; simp [dedupAdj] at hr
    | cons x xs =>
      rw [hS] at hsorted
      intro hr
      rcases List.mem_cons.mp hr with hr | hr
      · subst hr
        simp [findFirstByKey]
      · obtain ⟨hne, hf⟩ := dedupAdjGo_firstwins xs x hsorted r hr
        rw [findFirstByKey, if_neg (fun h' => hne h'.symm)]
        exact hf
  · intro x hx
    have hxS : x ∈ sortReqs reqs := (sortReqs_perm reqs).mem_iff.mpr hx
    show ∃ r ∈ dedupAdj (sortReqs reqs), r.1 = x.1
    cases hS : sortReqs reqs with
    | nil => rw [hS] at hxS; simp at hxS
    | cons h hs =>
      rw [hS] at hxS
      rcases List.mem_cons.mp hxS with hxh | hxs
      · exact ⟨h, by simp [dedupAdj], by rw [hxh]⟩
      · rcases dedupAdjGo_covers hs h x hxs with hcase | ⟨r, hr, hrk⟩
        · exact ⟨h, by simp [dedupAdj], hcase.symm⟩
        · exact ⟨r, by simp [dedupAdj, hr], hrk⟩

theorem lockbox_canonical_requests_witness :
    findFirstByKey [99] [([99], 0), ([97], 1), ([99], 2)] = some ([99], 0) :=
  (lockbox_canonical_requests [([99], 0), ([97], 1), ([99], 2)]).2.2.1
    ([99], 0) (by decide)

/-- First-match association lookup, modelling `Map.prototype.get` (keys in
a JS `Map` are unique, so first match is the match). -/
def lookupKey {κ β : Type} [DecidableEq κ] : List (κ × β) → κ → Option β
  | [], _ => none
  | x :: xs, k => if x.1 = k then some x.2 else lookupKey xs k

/-- Model of `Map.prototype.set` on a present key: replace the value in place. -/
def updateKey {κ β : Type} [DecidableEq κ] : List (κ × β) → κ → β → List (κ × β)
  | [], _, _ => []
  | x :: xs, k, v => if x.1 = k then (k, v) :: xs else x :: updateKey xs k v

/-- Model of `Map.prototype.delete`: remove the entry for the key. -/
def deleteKey {κ β : Type} [DecidableEq κ] : List (κ × β) → κ → List (κ × β)
  | [], _ => []
  | x :: xs, k => if x.1 = k then xs else x :: deleteKey xs k

/-- The `LockBox` map, each key holding the underlying lockable's `count`
(the number of holders plus waiters; `isLocked()` is `count > 0` for the
semaphore-backed lockables). -/
abbrev BoxMap := List (JKey × Int)

/-- A successful `lock.lock(...)()` on the underlying lockable: its count
is up by one while the acquire is held. -/
def bumpKey (box : BoxMap) (k : JKey) : BoxMap :=
  match lookupKey box k with
  | some c => updateKey box k (c + 1)
  | none => box

/-- One release step of `LockBox.lock`'s reverse walk (both the unwind in
the `catch` and the returned release): `await lockRelease()` (the
lockable's count drops by one), then `if (!lock.isLocked())
this._locks.delete(key)`. -/
def releaseClean (box : BoxMap) (k : JKey) : BoxMap :=
  match lookupKey box k with
  | none => box
  | some c =>
    let box' := updateKey box k (c - 1)
    if c - 1 > 0 then box' else deleteKey box' k

/-- The reverse walk over an acquired-key list (already reversed by the
caller, as `locks.reverse()` does). -/
def unwindLocks (box : BoxMap) : List JKey → BoxMap
  | [] => box
  | k :: ks => unwindLocks (releaseClean box k) ks

/-- The sequential walk of `LockBox.lock` (lines 72-103) over the
effective request keys.  For each key: create the entry if absent
(`new LockConstructor(); this._locks.set(key, lock)`), then invoke the
lockable's own lock.  `failAt = some i` means the `i`-th acquire of the
walk rejects (for example because the context signal is already aborted);
a failed acquire leaves the lockable's own count unchanged (the lockable
restores it internally), and the `catch` unwinds ONLY the previously
acquired keys, in reverse — not the failing key.  Returns the resulting
map, the acquired keys in acquisition order, and a success flag. -/
def lockWalk (box : BoxMap) (acquired : List JKey) :
    List JKey → Option Nat → BoxMap × List JKey × Bool
  | [], _ => (box, acquired, true)
  | k :: ks, failAt =>
    let box1 := if (lookupKey box k).isSome then box else box ++ [(k, 0)]
    match failAt with
    | some 0 => (unwindLocks box1 acquired.reverse, [], false)
    | some (i + 1) => lockWalk (bumpKey box1 k) (acquired ++ [k]) ks (some i)
    | none => lockWalk (bumpKey box1 k) (acquired ++ [k]) ks none

/-- The release returned by a successful `LockBox.lock` together with its
captured `released` flag: on the first call only, walk the acquired keys
in reverse, releasing each and deleting entries that report unlocked. -/
def lockBoxRelease (acquired : List JKey) (x : BoxMap × Bool) : BoxMap × Bool :=
  if x.2 then x else (unwindLocks x.1 acquired.reverse, true)

/-- C7.  The claimed entry-lifecycle invariant fails on the failure path
of `LockBox.lock`: when the very acquire that created a fresh entry
rejects (already-aborted context signal on a previously absent key), the
`catch` unwinds only the keys acquired *before* it, so the freshly
created entry stays in the map with an unlocked lockable that no holder
or waiter references (first two conjuncts: the walk over the single fresh
key `"k"` whose acquire fails leaves the entry with count 0 in the map).
The release steps themselves do behave as claimed — the third conjunct
shows a release removing an entry exactly when its lockable reports
unlocked, and the fourth shows it keeping an entry that is still locked
by another context.  (`LockBox.lockMulti`'s per-key `catch` deletes the
fresh entry in this situation; `lock`'s `catch` does not.) -/
theorem lockbox_fresh_entry_leak :
    lockWalk ([] : BoxMap) [] [[107]] (some 0) = ([([107], 0)], [], false) ∧
      lookupKey (lockWalk ([] : BoxMap) [] [[107]] (some 0)).1 [107] = some 0 ∧
      unwindLocks [([107], 1)] [[107]] = [] ∧
      unwindLocks [([107], 2)] [[107]] = [([107], 1)] := by
  refine ⟨?_, ?_, ?_, ?_⟩ <;> decide

/-- C2 counterexample.  The release closure of the async-mutex based
`Lock.lock` (src/Lock.ts lines 27-35) has no `released` guard: after a
single acquire (count 1), releasing twice decrements `_count` twice,
ending at -1 instead of the 0 a single release produces — so "releasing
twice is a no-op" does not hold for every primitive.  (The
`RWLockReader.read` release, src/RWLockReader.ts lines 212-226, has the
same unguarded shape.) -/
theorem release_twice_noop_counterexample :
    oldLockRelease (oldLockRelease (oldLockAcquire (OldLockState.mk 0 false))) ≠
      oldLockRelease (oldLockAcquire (OldLockState.mk 0 false)) := by
  decide

/-- A read-write lock type. -/
inductive LType
  | read
  | write
deriving DecidableEq

/-- Status of a monitor-local lock entry. -/
inductive MStatus
  | acquiring
  | acquired
deriving DecidableEq

/-- A monitor-local lock map entry (`Monitor._locks`): its status and lock
type (the `lock`/`release` of an acquired entry are irrelevant to the
detector and the request builder). -/
structure MonLocal where
  status : MStatus
  type : LType
deriving DecidableEq

/-- What the deadlock detector observes of a live `LockBox` entry:
`isLocked()` and `isLocked('write')` of the underlying RW lock. -/
structure LockView where
  lockedAny : Bool
  lockedWrite : Bool
deriving DecidableEq

/-- Model of `Monitor.checkForDeadlock` (src/Monitor.ts lines 401-428): look up the
live LockBox entry for `key`; if it blocks the request (`read` with a
writer held, or `write` with anything held), scan the shared pending-lock
keys; a pending `(otherKey, otherType)` signals a cycle when this
monitor's local map has an entry for `otherKey` and either that local
entry's type is `write` or `otherType` is `write`. -/
def checkForDeadlock (boxLocks : List (JKey × LockView))
    (pendingKeys : List (JKey × LType)) (locksLocal : List (JKey × MonLocal))
    (key : JKey) (lockType : LType) : Bool :=
  match lookupKey boxLocks key with
  | none => false
  | some v =>
    if (decide (lockType = .read) && v.lockedWrite) ||
        (decide (lockType = .write) && v.lockedAny) then
      pendingKeys.any fun pk =>
        match lookupKey locksLocal pk.1 with
        | some ml => decide (ml.type = LType.write) || decide (pk.2 = LType.write)
        | none => false
    else false

/-- Model of `Monitor.setPendingLock`: register a pending `(key, type)` in the
shared pending-locks map, creating the entry with count 1 or bumping the
existing count. -/
def setPendingLock (m : List ((JKey × LType) × Int)) (key : JKey) (t : LType) :
    List ((JKey × LType) × Int) :=
  match lookupKey m (key, t) with
  | none => m ++ [((key, t), 1)]
  | some c => updateKey m (key, t) (c + 1)

/-- The step `Monitor.lock` performs before awaiting a per-key acquire
when deadlock detection is enabled (src/Monitor.ts lines 184-197): run
the detector; if it fires, cancel the acquire with
`ErrorAsyncLocksMonitorDeadlock` and register nothing; otherwise register
the pending `(key, type)`. -/
def monitorBeforeAwait (boxLocks : List (JKey × LockView))
    (pendingMap : List ((JKey × LType) × Int)) (locksLocal : List (JKey × MonLocal))
    (key : JKey) (t : LType) : Option JsError × List ((JKey × LType) × Int) :=
  if checkForDeadlock boxLocks (pendingMap.map Prod.fst) locksLocal key t then
    (some .monitorDeadlock, pendingMap)
  else
    (none, setPendingLock pendingMap key t)

/-- C5.  The deadlock detector returns `false` when the live LockBox
entry poses no blocking conflict (no entry, or `read` with no writer
held, or `write` with nothing held); otherwise it returns `true` exactly
when some pending `(otherKey, otherType)` has a local entry for
`otherKey` in this monitor whose type is `write`, or with `otherType`
`write`.  When it fires, the per-key acquire is cancelled with the
Monitor deadlock error and no pending-lock entry is registered; when it
does not, the pending `(key, type)` is registered for the await. -/
theorem monitor_deadlock_detector (boxLocks : List (JKey × LockView))
    (pendingKeys : List (JKey × LType)) (locksLocal : List (JKey × MonLocal))
    (key : JKey) (t : LType) :
    (checkForDeadlock boxLocks pendingKeys locksLocal key t = true ↔
        ∃ v, lookupKey boxLocks key = some v ∧
          ((t = .read ∧ v.lockedWrite = true) ∨ (t = .write ∧ v.lockedAny = true)) ∧
          ∃ pk ∈ pendingKeys, ∃ ml, lookupKey locksLocal pk.1 = some ml ∧
            (ml.type = .write ∨ pk.2 = .write)) ∧
      (∀ pendingMap : List ((JKey × LType) × Int),
        pendingMap.map Prod.fst = pendingKeys →
        checkForDeadlock boxLocks pendingKeys locksLocal key t = true →
        monitorBeforeAwait boxLocks pendingMap locksLocal key t =
          (some .monitorDeadlock, pendingMap)) ∧
      (∀ pendingMap : List ((JKey × LType) × Int),
        pendingMap.map Prod.fst = pendingKeys →
        checkForDeadlock boxLocks pendingKeys locksLocal key t = false →
        monitorBeforeAwait boxLocks pendingMap locksLocal key t =
          (none, setPendingLock pendingMap key t)) := by
  refine ⟨?_, ?_, ?_⟩
  · cases hlk : lookupKey boxLocks key with
    | none => simp [checkForDeadlock, hlk]
    | some v =>
      simp only [checkForDeadlock, hlk]
      by_cases hc : ((decide (t = LType.read) && v.lockedWrite) ||
          (decide (t = LType.write) && v.lockedAny)) = true
      · rw [if_pos hc]
        have hcprop : (t = LType.read ∧ v.lockedWrite = true) ∨
            (t = LType.write ∧ v.lockedAny = true) := by
          simpa [Bool.or_eq_true, Bool.and_eq_true, decide_eq_true_eq] using hc
        constructor
        · intro hany
          refine ⟨v, rfl, hcprop, ?_⟩
          rw [List.any_eq_true] at hany
          obtain ⟨pk, hpk, hpred⟩ := hany
          refine ⟨pk, hpk, ?_⟩
          cases hml : lookupKey locksLocal pk.1 with
          | none => rw [hml] at hpred; simp at hpred
          | some ml =>
            rw [hml] at hpred
            refine ⟨ml, rfl, ?_⟩
            simpa [Bool.or_eq_true, decide_eq_true_eq] using hpred
        · rintro ⟨v', hv', _, pk, hpk, ml, hml, hml2⟩
          rw [List.any_eq_true]
          refine ⟨pk, hpk, ?_⟩
          rw [hml]
          simpa [Bool.or_eq_true, decide_eq_true_eq] using hml2
      · rw [if_neg hc]
        constructor
        · intro h; simp at h
        · rintro ⟨v', hv', hcprop, _⟩
          obtain rfl : v = v' := by injection hv'
          exfalso
          apply hc
          simpa [Bool.or_eq_true, Bool.and_eq_true, decide_eq_true_eq] using hcprop
  · intro pendingMap hmap hdet
    unfold monitorBeforeAwait
    rw [hmap, hdet]
    rfl
  · intro pendingMap hmap hdet
    unfold monitorBeforeAwait
    rw [hmap, hdet]
    rfl

theorem monitor_deadlock_detector_witness :
    monitorBeforeAwait [([98], LockView.mk true true)] [(([97], LType.write), 1)]
        [([97], MonLocal.mk .acquired .write)] [98] .write =
      (some .monitorDeadlock, [(([97], LType.write), 1)]) :=
  (monitor_deadlock_detector [([98], LockView.mk true true)]
      [([97], LType.write)] [([97], MonLocal.mk .acquired .write)] [98] .write).2.1
    [(([97], LType.write), 1)] rfl (by decide)

/-- A request passed to `Monitor.lock`: either a bare key (defaulting to a
`write` lock) or a tuple `[key, type?]` (an omitted type also defaults to
`write`; the optional per-request ctx does not affect the request list
construction). -/
inductive MReq
  | bare (k : JKey)
  | tup (k : JKey) (t : Option LType)
deriving DecidableEq

/-- The key of a monitor lock request. -/
def MReq.rkey : MReq → JKey
  | .bare k => k
  | .tup k _ => k

/-- The lock type of a monitor lock request (`write` by default). -/
def MReq.rtype : MReq → LType
  | .bare _ => .write
  | .tup _ t => t.getD .write

/-- The request-building loop of `Monitor.lock` (src/Monitor.ts lines
137-173): for each request in order, a key absent from the monitor-local
map is pushed onto the LockBox request list; a key already present with
the same type is silently skipped (re-entrant no-op); a key already
present with a different type throws `ErrorAsyncLocksMonitorLockType`.
The loop runs before `lockBox.lockMulti` is called, so an error means no
acquisition is ever started. -/
def monitorBuildRequests (locksLocal : List (JKey × MonLocal)) :
    List MReq → Except JsError (List (JKey × LType))
  | [] => .ok []
  | r :: rs =>
    match lookupKey locksLocal r.rkey with
    | none =>
      match monitorBuildRequests locksLocal rs with
      | .ok rest => .ok ((r.rkey, r.rtype) :: rest)
      | .error e => .error e
    | some ml =>
      if ml.type = r.rtype then monitorBuildRequests locksLocal rs
      else .error .monitorLockType

/-- The per-key acquires `Monitor.lock` will await: the built request
list, canonicalised by `lockBox.lockMulti` (sorted and deduplicated).
The scope-release returned by `Monitor.lock` releases exactly the keys
acquired through this list, so a key absent from it is never released by
that scope-release. -/
def monitorLockPlan (locksLocal : List (JKey × MonLocal)) (reqs : List MReq) :
    Except JsError (List (JKey × LType)) :=
  match monitorBuildRequests locksLocal reqs with
  | .error e => .error e
  | .ok rs => .ok (lockMultiEffectiveRequests rs)

theorem dedupAdj_subset {α : Type} (l : List (JKey × α)) (y : JKey × α)
    (hy : y ∈ dedupAdj l) : y ∈ l := by
  cases l with
  | nil => simp [dedupAdj] at hy
  | cons x xs =>
    rcases List.mem_cons.mp hy with hy | hy
    · exact hy ▸ List.mem_cons_self x xs
    · exact List.mem_cons_of_mem x (dedupAdjGo_subset xs x y hy)

theorem monitorBuildRequests_error_eq (locksLocal : List (JKey × MonLocal)) :
    ∀ (reqs : List MReq) (e : JsError),
      monitorBuildRequests locksLocal reqs = .error e → e = .monitorLockType := by
  intro reqs
  induction reqs with
  | nil => intro e h; simp [monitorBuildRequests] at h
  | cons r rs ih =>
    intro e h
    cases hlk : lookupKey locksLocal r.rkey with
    | none =>
      cases hrs : monitorBuildRequests locksLocal rs with
      | ok rest => simp [monitorBuildRequests, hlk, hrs] at h
      | error e' =>
        simp only [monitorBuildRequests, hlk, hrs, Except.error.injEq] at h
        exact h ▸ ih e' hrs
    | some ml =>
      simp only [monitorBuildRequests, hlk] at h
      by_cases hty : ml.type = r.rtype
      · rw [if_pos hty] at h
        exact ih e h
      · rw [if_neg hty] at h
        simp only [Except.error.injEq] at h
        exact h.symm

theorem monitorBuildRequests_ok_unheld (locksLocal : List (JKey × MonLocal)) :
    ∀ (reqs : List MReq) (out : List (JKey × LType)),
      monitorBuildRequests locksLocal reqs = .ok out →
      ∀ p ∈ out, lookupKey locksLocal p.1 = none := by
  intro reqs
  induction reqs with
  | nil =>
    intro out h p hp
    simp only [monitorBuildRequests, Except.ok.injEq] at h
    rw [← h] at hp
    simp at hp
  | cons r rs ih =>
    intro out h p hp
    cases hlk : lookupKey locksLocal r.rkey with
    | none =>
      cases hrs : monitorBuildRequests locksLocal rs with
      | error e' => simp [monitorBuildRequests, hlk, hrs] at h
      | ok rest =>
        simp only [monitorBuildRequests, hlk, hrs, Except.ok.injEq] at h
        rw [← h] at hp
        rcases List.mem_cons.mp hp with hp | hp
        · rw [hp]
          exact hlk
        · exact ih rest hrs p hp
    | some ml =>
      simp only [monitorBuildRequests, hlk] at h
      by_cases hty : ml.type = r.rtype
      · rw [if_pos hty] at h
        exact ih out h p hp
      · rw [if_neg hty] at h
        simp at h

theorem monitorBuildRequests_mismatch_iff (locksLocal : List (JKey × MonLocal)) :
    ∀ reqs : List MReq,
      (∃ r ∈ reqs, ∃ ml, lookupKey locksLocal r.rkey = some ml ∧ ml.type ≠ r.rtype) ↔
        monitorBuildRequests locksLocal reqs = .error .monitorLockType := by
  intro reqs
  induction reqs with
  | nil =>
    constructor
    · rintro ⟨r, hr, _⟩; simp at hr
    · intro h; simp [monitorBuildRequests] at h
  | cons r rs ih =>
    constructor
    · rintro ⟨r0, hr0, ml0, hml0, hty0⟩
      rcases List.mem_cons.mp hr0 with hr0 | hr0
      · subst hr0
        simp only [monitorBuildRequests, hml0]
        rw [if_neg hty0]
      · have hrs : monitorBuildRequests locksLocal rs = .error .monitorLockType :=
          ih.mp ⟨r0, hr0, ml0, hml0, hty0⟩
        cases hlk : lookupKey locksLocal r.rkey with
        | none => simp [monitorBuildRequests, hlk, hrs]
        | some ml =>
          simp only [monitorBuildRequests, hlk]
          by_cases hty : ml.type = r.rtype
          · rw [if_pos hty]; exact hrs
          · rw [if_neg hty]
    · intro h
      cases hlk : lookupKey locksLocal r.rkey with
      | none =>
        cases hrs : monitorBuildRequests locksLocal rs with
        | ok rest => simp [monitorBuildRequests, hlk, hrs] at h
        | error e' =>
          have he' : e' = .monitorLockType :=
            monitorBuildRequests_error_eq locksLocal rs e' hrs
          obtain ⟨r0, hr0, ml0, hml0, hty0⟩ := ih.mpr (he' ▸ hrs)
          exact ⟨r0, List.mem_cons_of_mem r hr0, ml0, hml0, hty0⟩
      | some ml =>
        simp only [monitorBuildRequests, hlk] at h
        by_cases hty : ml.type = r.rtype
        · rw [if_pos hty] at h
          obtain ⟨r0, hr0, ml0, hml0, hty0⟩ := ih.mpr h
          exact ⟨r0, List.mem_cons_of_mem r hr0, ml0, hml0, hty0⟩
        · exact ⟨r, List.mem_cons_self r rs, ml, hlk, hty⟩

/-- C6.  Within one `Monitor.lock` call: a request for a key already in
the monitor-local map with a different type fails with the Monitor
lock-type mismatch error — and this happens in the request-building loop,
before any acquisition is started; a request for a held key with the same
(matching) type is a silent no-op — no mismatch means the build succeeds,
and every request that reaches the LockBox (hence every key the returned
scope-release can ever release) is for a key that was NOT already held. -/
theorem monitor_reentrant_lock (locksLocal : List (JKey × MonLocal)) (reqs : List MReq) :
    ((∃ r ∈ reqs, ∃ ml, lookupKey locksLocal r.rkey = some ml ∧ ml.type ≠ r.rtype) ↔
        monitorBuildRequests locksLocal reqs = .error .monitorLockType) ∧
      ((¬ ∃ r ∈ reqs, ∃ ml, lookupKey locksLocal r.rkey = some ml ∧ ml.type ≠ r.rtype) →
        ∃ out, monitorBuildRequests locksLocal reqs = .ok out) ∧
      (∀ out, monitorLockPlan locksLocal reqs = .ok out →
        ∀ p ∈ out, lookupKey locksLocal p.1 = none) := by
  refine ⟨monitorBuildRequests_mismatch_iff locksLocal reqs, ?_, ?_⟩
  · intro hno
    cases hb : monitorBuildRequests locksLocal reqs with
    | ok out => exact ⟨out, rfl⟩
    | error e =>
      have he : e = .monitorLockType :=
        monitorBuildRequests_error_eq locksLocal reqs e hb
      exact absurd ((monitorBuildRequests_mismatch_iff locksLocal reqs).mpr (he ▸ hb)) hno
  · intro out hplan p hp
    unfold monitorLockPlan at hplan
    cases hb : monitorBuildRequests locksLocal reqs with
    | error e => rw [hb] at hplan; simp at hplan
    | ok rs =>
      rw [hb] at hplan
      simp only [Except.ok.injEq] at hplan
      rw [← hplan] at hp
      have hp' : p ∈ rs :=
        (sortReqs_perm rs).mem_iff.mp (dedupAdj_subset (sortReqs rs) p hp)
      exact monitorBuildRequests_ok_unheld locksLocal reqs rs hb p hp'

theorem monitor_reentrant_lock_witness :
    monitorBuildRequests [([97], MonLocal.mk .acquired .write)]
        [.tup [97] (some .read)] = .error .monitorLockType :=
  (monitor_reentrant_lock [([97], MonLocal.mk .acquired .write)]
      [.tup [97] (some .read)]).1.mp
    ⟨.tup [97] (some .read), by decide, MonLocal.mk .acquired .write, by decide, by decide⟩

/-- Model of `Monitor.unlock` (src/Monitor.ts lines 258-268), as it acts
on the monitor-local lock map: for each key in call order, a key with no
local entry is skipped, an `acquiring` entry is left alone, and an
`acquired` entry is removed from the map (and its underlying release
invoked, which mutates the lockable, not this map). -/
def monitorUnlock (locksLocal : List (JKey × MonLocal)) :
    List JKey → List (JKey × MonLocal)
  | [] => locksLocal
  | k :: ks =>
    match lookupKey locksLocal k with
    | none => monitorUnlock locksLocal ks
    | some ml =>
      match ml.status with
      | .acquired => monitorUnlock (deleteKey locksLocal k) ks
      | .acquiring => monitorUnlock locksLocal ks

/-- The scope release returned by `Monitor.lock` (src/Monitor.ts lines
228-236) together with its captured `released` flag: on the first call
only, unlock the keys this call acquired, in reverse acquisition
order. -/
def monitorScopeRelease (lockedKeys : List JKey)
    (x : List (JKey × MonLocal) × Bool) : List (JKey × MonLocal) × Bool :=
  if x.2 then x else (monitorUnlock x.1 lockedKeys.reverse, true)

open SemState in
/-- C2 (amended).  The releases that carry a `released` flag — the
ctx-based `Semaphore.lock` release (src/Semaphore.ts lines 200-219), the
`RWLockWriter` read and write releases (src/RWLockWriter.ts lines
114-124 and 163-173), the `LockBox.lock` release (src/LockBox.ts lines
104-121), and the `Monitor.lock` scope release (src/Monitor.ts lines
228-236) — are idempotent: a second call is a no-op and every counter
equals its value after a single release.  The async-mutex based `Lock`
and `RWLockReader` releases in the source lack the guard, and a second
call decrements their counters again (see the counterexample). -/
theorem release_twice_noop_guarded :
    (∀ (w : Nat) (x : SemState × Bool), semRelease w (semRelease w x) = semRelease w x) ∧
      (∀ x : RWWriterState × Bool,
        rwWriterReadRelease (rwWriterReadRelease x) = rwWriterReadRelease x) ∧
      (∀ x : RWWriterState × Bool,
        rwWriterWriteRelease (rwWriterWriteRelease x) = rwWriterWriteRelease x) ∧
      (∀ (ks : List JKey) (x : BoxMap × Bool),
        lockBoxRelease ks (lockBoxRelease ks x) = lockBoxRelease ks x) ∧
      (∀ (ks : List JKey) (x : List (JKey × MonLocal) × Bool),
        monitorScopeRelease ks (monitorScopeRelease ks x) = monitorScopeRelease ks x) := by
  refine ⟨?_, ?_, ?_, ?_, ?_⟩
  · intro w x
    obtain ⟨s, r⟩ := x
    cases r <;> simp [semRelease]
  · intro x
    obtain ⟨s, r⟩ := x
    cases r <;> simp [rwWriterReadRelease]
  · intro x
    obtain ⟨s, r⟩ := x
    cases r <;> simp [rwWriterWriteRelease]
  · intro ks x
    obtain ⟨b, r⟩ := x
    cases r <;> simp [lockBoxRelease]
  · intro ks x
    obtain ⟨m, r⟩ := x
    cases r <;> simp [monitorScopeRelease]

end AsyncLocks
